import Mathlib

/-!
Shallow embedding of the checksum module of rust-bech32
(src/primitives/checksum.rs): the packed field-element vector arithmetic,
the checksum engine, the configuration sanity check and the HRP
field-element iterator.  Machine integers (u32/u64/u128) are modelled as
Nat together with an explicit bit-width parameter w, truncating with
% 2 ^ w exactly where the Rust code's fixed-width semantics does.
-/

/--
The PackedFe32 trait: an integer type used as a packed sequence of field
elements (5 bits each).  Each Rust impl is one value of this structure:
ONE, the derived WIDTH (size_of * 8 / 5), bitwise xor, and the two trait
methods unpack and mul_by_x_then_add (which in Rust mutates self and
returns the dropped coefficient; here it returns the pair
(new value, dropped coefficient)).
-/
structure PackedFe32 (M : Type) where
  ONE : M
  WIDTH : Nat
  xor : M → M → M
  unpack : M → Nat → Nat
  mul_by_x_then_add : M → Nat → Nat → M × Nat

/--
unpack for the unsigned-integer impls (macro impl_packed_fe32):
(*self >> (n * 5)) as u8 & 0x1f.  The cast to u8 truncates modulo 256
before the mask is applied.
-/
def uintUnpack (v n : Nat) : Nat := ((v >>> (n * 5)) % 256) &&& 0x1f

/--
mul_by_x_then_add for a w-bit unsigned integer impl:
let ret = self.unpack(degree - 1);
*self &= !(0x1f << ((degree - 1) * 5));  (complement inside w bits)
*self <<= 5;                             (truncating at w bits)
*self |= Self::from(add);
returning (new value, ret).
-/
def uintMulByXThenAdd (w v degree add : Nat) : Nat × Nat :=
  (((v &&& ((2 ^ w - 1) ^^^ ((0x1f <<< ((degree - 1) * 5)) % 2 ^ w))) <<< 5) % 2 ^ w ||| add,
   uintUnpack v (degree - 1))

/-- The PackedFe32 impl for a w-bit unsigned integer (u32, u64, u128 are
w = 32, 64, 128); WIDTH = w / 5 mirrors size_of * 8 / 5. -/
def packedUint (w : Nat) : PackedFe32 Nat where
  ONE := 1
  WIDTH := w / 5
  xor := fun a b => a ^^^ b
  unpack := uintUnpack
  mul_by_x_then_add := fun v degree add => uintMulByXThenAdd w v degree add

/-- The placeholder type PackedNull (a unit struct). -/
structure PackedNull

/-- The PackedFe32 impl for PackedNull: ONE is the unit value, WIDTH is
size_of::<PackedNull>() * 8 / 5 = 0, xor returns PackedNull, unpack
returns 0 and mul_by_x_then_add ignores its arguments and returns 0. -/
def packedNull : PackedFe32 PackedNull where
  ONE := {}
  WIDTH := 0
  xor := fun _ _ => {}
  unpack := fun _ _ => 0
  mul_by_x_then_add := fun _ _ _ => ({}, 0)

/--
The Checksum trait: a configuration is a midstate impl together with the
four associated constants.  GENERATOR_SH is the [MidstateRepr; 5] array,
indexed by Fin 5.
-/
structure Checksum (M : Type) where
  midstate : PackedFe32 M
  CODE_LENGTH : Nat
  CHECKSUM_LENGTH : Nat
  GENERATOR_SH : Fin 5 → M
  TARGET_RESIDUE : M

/-- A configuration whose midstate type is a w-bit unsigned integer. -/
def mkChecksum (w cl L : Nat) (G : Fin 5 → Nat) (T : Nat) : Checksum Nat :=
  { midstate := packedUint w
    CODE_LENGTH := cl
    CHECKSUM_LENGTH := L
    GENERATOR_SH := G
    TARGET_RESIDUE := T }

/--
Engine::input_fe.  The engine state is its single field residue, modelled
directly as a value of the midstate type:
let xn = self.residue.mul_by_x_then_add(Ck::CHECKSUM_LENGTH, e.into());
for i in 0..5 { if xn & (1 << i) != 0 { self.residue = self.residue ^ Ck::GENERATOR_SH[i]; } }
-/
def input_fe {M : Type} (ck : Checksum M) (residue : M) (e : Nat) : M :=
  let p := ck.midstate.mul_by_x_then_add residue ck.CHECKSUM_LENGTH e
  (List.finRange 5).foldl
    (fun r i => if (p.2 &&& (1 <<< i.val)) != 0 then ck.midstate.xor r (ck.GENERATOR_SH i) else r)
    p.1

/--
Engine::input_target_residue:
for i in 0..Ck::CHECKSUM_LENGTH {
  self.input_fe(Fe32(Ck::TARGET_RESIDUE.unpack(Ck::CHECKSUM_LENGTH - i - 1)));
}
-/
def input_target_residue {M : Type} (ck : Checksum M) (residue : M) : M :=
  (List.range ck.CHECKSUM_LENGTH).foldl
    (fun r i => input_fe ck r (ck.midstate.unpack ck.TARGET_RESIDUE (ck.CHECKSUM_LENGTH - i - 1)))
    residue

/-- Engine::new() { residue: Ck::MidstateRepr::ONE } followed by feeding a
sequence of field elements through input_fe; the result is the engine's
residue() afterwards. -/
def runEngine {M : Type} (ck : Checksum M) (es : List Nat) : M :=
  es.foldl (input_fe ck) ck.midstate.ONE

/--
Checksum::sanity_check().  It performs (only) assertions; we model it as
the conjunction of all asserted conditions:
assert!(CHECKSUM_LENGTH <= MidstateRepr::WIDTH) and, for i in 1..5 and
j in 0..WIDTH,
assert_eq!(GENERATOR_SH[i].unpack(j),
           (GENERATOR_SH[i-1].unpack(j) << 1) ^ if .. & 0x10 == 0x10 { 41 } else { 0 }).
The loop over i in 1..5 is indexed here by i : Fin 4 standing for the
pair (i, i+1), i.e. Rust's (i-1, i).
-/
def sanity_check {M : Type} (ck : Checksum M) : Bool :=
  decide (ck.CHECKSUM_LENGTH ≤ ck.midstate.WIDTH) &&
  (List.finRange 4).all (fun i =>
    (List.range ck.midstate.WIDTH).all (fun j =>
      ck.midstate.unpack (ck.GENERATOR_SH ⟨i.val + 1, Nat.succ_lt_succ i.isLt⟩) j ==
        ((ck.midstate.unpack (ck.GENERATOR_SH ⟨i.val, Nat.lt_succ_of_lt i.isLt⟩) j) <<< 1) ^^^
          (if ck.midstate.unpack (ck.GENERATOR_SH ⟨i.val, Nat.lt_succ_of_lt i.isLt⟩) j &&& 0x10 == 0x10
           then 41 else 0)))

/-- Modelled from the spec: Fe32::Q, the distinguished separator field
element.  The field-element type (crate::primitives::gf32) is not part of
this module; the spec only says one value is distinguished as the
separator, and no claim below depends on its numeric value. -/
def feQ : Nat := 0

/--
HrpFe32Iter.  The two LowercaseByteIter fields are modelled from the spec
(the Hrp type is not part of this module): a restartable, exact-length
iteration yielding the lower-cased bytes of the prefix, represented here
by the list of bytes it has still to yield (None once exhausted, as in
the source).
-/
structure HrpFe32Iter where
  high_iter : Option (List Nat)
  low_iter : Option (List Nat)

/-- HrpFe32Iter::new: both iterators start at the full lower-cased byte
sequence of the hrp. -/
def HrpFe32Iter.new (bs : List Nat) : HrpFe32Iter := ⟨some bs, some bs⟩

/--
Iterator::next for HrpFe32Iter: while high_iter is live, yield
Fe32(high >> 5) per byte, then Fe32::Q once it exhausts (setting it to
None); then while low_iter is live, yield Fe32(low & 0x1f) per byte; on
its exhaustion set it to None and return None; afterwards return None.
-/
def HrpFe32Iter.next : HrpFe32Iter → Option Nat × HrpFe32Iter
  | ⟨some (b :: rest), lo⟩ => (some (b >>> 5), ⟨some rest, lo⟩)
  | ⟨some [], lo⟩ => (some feQ, ⟨none, lo⟩)
  | ⟨none, some (b :: rest)⟩ => (some (b &&& 0x1f), ⟨none, some rest⟩)
  | ⟨none, some []⟩ => (none, ⟨none, none⟩)
  | ⟨none, none⟩ => (none, ⟨none, none⟩)

/-- Modelled from the spec: LowercaseByteIter::size_hint.  The prefix
length is known exactly, so the inner iterator reports exact bounds. -/
def lowercaseSizeHint (bs : List Nat) : Nat × Option Nat := (bs.length, some bs.length)

/--
Iterator::size_hint for HrpFe32Iter, exactly as in the source:
high = inner hint + 1 (comment: for the extra Q) when live, (0, 0) when
spent; low = inner hint when live, (0, 0) when spent; result
(high.0 + 1 + low.0, high.1.zip(low.1).map(|(h, l)| h + 1 + l)).
-/
def HrpFe32Iter.size_hint (it : HrpFe32Iter) : Nat × Option Nat :=
  let high := match it.high_iter with
    | some hs => ((lowercaseSizeHint hs).1 + 1, ((lowercaseSizeHint hs).2).map (fun m => m + 1))
    | none => (0, some 0)
  let low := match it.low_iter with
    | some ls => lowercaseSizeHint ls
    | none => (0, some 0)
  (high.1 + 1 + low.1,
    match high.2, low.2 with
    | some h, some l => some (h + 1 + l)
    | _, _ => none)

/-- Driving the iterator: collect the yielded elements, stopping at the
first None; fuel bounds the number of next() calls. -/
def HrpFe32Iter.collect : HrpFe32Iter → Nat → List Nat
  | _, 0 => []
  | it, fuel + 1 =>
    match it.next with
    | (some x, it2) => x :: it2.collect fuel
    | (none, _) => []

/-- The full sequence of field elements HrpFe32Iter yields for an hrp
whose lower-cased bytes are bs (2 * n + 2 next() calls always reach the
terminating None). -/
def hrpFes (bs : List Nat) : List Nat := (HrpFe32Iter.new bs).collect (2 * bs.length + 2)

/-- Engine::input_hrp: for fe in HrpFe32Iter::new(&hrp) { self.input_fe(fe) }. -/
def input_hrp {M : Type} (ck : Checksum M) (residue : M) (bs : List Nat) : M :=
  (hrpFes bs).foldl (input_fe ck) residue

/-- One public engine operation (used to state that a whole call sequence
leaves a PackedNull engine unchanged). -/
inductive EngineOp where
  | fe (e : Nat)
  | hrp (bs : List Nat)
  | targetResidue

/-- Apply one engine operation to the residue. -/
def applyOp {M : Type} (ck : Checksum M) (residue : M) : EngineOp → M
  | .fe e => input_fe ck residue e
  | .hrp bs => input_hrp ck residue bs
  | .targetResidue => input_target_residue ck residue

/--
The spec's step-by-step description of input_field_element: compute
dropped and the shifted residue by one mul_by_x_then_add call, then for
each bit position i in 0..=4, in that order, xor the residue with
GENERATOR_SH[i] exactly when bit i of dropped is set.
-/
def inputFeSpec {M : Type} (ck : Checksum M) (residue : M) (e : Nat) : M :=
  let p := ck.midstate.mul_by_x_then_add residue ck.CHECKSUM_LENGTH e
  let dropped := p.2
  let r0 := if dropped.testBit 0 then ck.midstate.xor p.1 (ck.GENERATOR_SH ⟨0, by omega⟩) else p.1
  let r1 := if dropped.testBit 1 then ck.midstate.xor r0 (ck.GENERATOR_SH ⟨1, by omega⟩) else r0
  let r2 := if dropped.testBit 2 then ck.midstate.xor r1 (ck.GENERATOR_SH ⟨2, by omega⟩) else r1
  let r3 := if dropped.testBit 3 then ck.midstate.xor r2 (ck.GENERATOR_SH ⟨3, by omega⟩) else r2
  if dropped.testBit 4 then ck.midstate.xor r3 (ck.GENERATOR_SH ⟨4, by omega⟩) else r3

/--
The spec's description of multiply_by_x_then_add on a w-bit packed
vector: extract and return the coefficient at slot degree - 1, zero that
slot (subtract the coefficient at its weight), shift the whole bit
pattern left by 5 within the w-bit type, and write add into the vacated
slot 0.
-/
def specMulByXThenAdd (w v degree add : Nat) : Nat × Nat :=
  (((v - uintUnpack v (degree - 1) * 2 ^ (5 * (degree - 1))) <<< 5) % 2 ^ w + add,
   uintUnpack v (degree - 1))

/-- The field elements input_target_residue feeds, in order:
TARGET_RESIDUE unpacked at slot CHECKSUM_LENGTH - 1 down to slot 0. -/
def targetFes {M : Type} (ck : Checksum M) : List Nat :=
  (List.range ck.CHECKSUM_LENGTH).map
    (fun i => ck.midstate.unpack ck.TARGET_RESIDUE (ck.CHECKSUM_LENGTH - i - 1))

/-- A w-bit packed value read out as L field elements, from slot L - 1
down to slot 0. -/
def unpackSeq (v L : Nat) : List Nat :=
  (List.range L).map (fun i => uintUnpack v (L - i - 1))

/-- Repack a list of field elements read from slot (length - 1) down to
slot 0: the head carries the highest slot. -/
def revPackX : List Nat → Nat
  | [] => 0
  | y :: ys => (y <<< (5 * ys.length)) ^^^ revPackX ys

/-- The total generator correction input_fe xors into the shifted residue
for a dropped coefficient xn (its five conditional xors, folded from 0). -/
def corrVal (G : Fin 5 → Nat) (xn : Nat) : Nat :=
  (List.finRange 5).foldl
    (fun acc i => if (xn &&& (1 <<< i.val)) != 0 then acc ^^^ G i else acc) 0

/-- Feed n zero field elements into the engine. -/
def feedZeros {M : Type} (ck : Checksum M) (residue : M) (n : Nat) : M :=
  (List.replicate n 0).foldl (input_fe ck) residue

/-- A concrete configuration over PackedNull (the crate's NoChecksum
shape: checksum length 0). -/
def nullChecksum : Checksum PackedNull :=
  { midstate := packedNull
    CODE_LENGTH := 0
    CHECKSUM_LENGTH := 0
    GENERATOR_SH := fun _ => {}
    TARGET_RESIDUE := {} }

theorem and_one_shiftLeft_bne (d i : Nat) : ((d &&& (1 <<< i)) != 0) = d.testBit i := by
  rw [Nat.one_shiftLeft, Nat.and_two_pow]
  cases h : d.testBit i <;> simp [h, Nat.pos_iff_ne_zero, Nat.pow_eq_zero]

/-- C1: for every checksum configuration and every field element,
input_fe performs exactly one division round: one mul_by_x_then_add call
giving the shifted residue and the dropped top coefficient, followed, for
each bit position i in 0..=4 in that order, by xoring the residue with
GENERATOR_SH[i] exactly when bit i of dropped is set, and nothing else. -/
theorem c1_input_fe_round {M : Type} (ck : Checksum M) (residue : M) (e : Nat) :
    input_fe ck residue e = inputFeSpec ck residue e := by
  have h5 : List.finRange 5 =
      [⟨0, by omega⟩, ⟨1, by omega⟩, ⟨2, by omega⟩, ⟨3, by omega⟩, ⟨4, by omega⟩] := by decide
  rw [input_fe, inputFeSpec, h5]
  simp only [List.foldl_cons, List.foldl_nil, and_one_shiftLeft_bne]

/-- C6: input_target_residue feeds exactly CHECKSUM_LENGTH field elements
through input_fe, namely TARGET_RESIDUE unpacked at slot
CHECKSUM_LENGTH - 1, then CHECKSUM_LENGTH - 2, down to slot 0, and
changes the engine state through those input_fe calls alone. -/
theorem c6_input_target_residue {M : Type} (ck : Checksum M) (residue : M) :
    input_target_residue ck residue = (targetFes ck).foldl (input_fe ck) residue ∧
    (targetFes ck).length = ck.CHECKSUM_LENGTH := by
  constructor
  · rw [targetFes, List.foldl_map]
    rfl
  · simp [targetFes]

/-- C9: feeding the same sequence S into two fresh engines yields
identical residues; in this shallow embedding the run is a pure fold of
input_fe from ONE, so the two runs are one and the same value. -/
theorem c9_determinism {M : Type} (ck : Checksum M) (S : List Nat) :
    S.foldl (input_fe ck) ck.midstate.ONE = runEngine ck S := rfl

/-- C10: on the unsigned-integer impls, unpack masks with 0x1f, so for
every stored value (even one violating the packing invariant) and every
slot index below WIDTH it returns a value in [0, 31]; hence the dropped
coefficient of mul_by_x_then_add — the value driving input_fe's
generator-xor loop — is always a valid field element. -/
theorem c10_unpack_masked (w v n degree add : Nat) (hn : n < (packedUint w).WIDTH) :
    (packedUint w).unpack v n < 32 ∧
    ((packedUint w).mul_by_x_then_add v degree add).2 < 32 := by
  refine ⟨?_, ?_⟩ <;> exact Nat.lt_succ_of_le Nat.and_le_right

theorem c10_unpack_masked_witness :
    2 < (packedUint 32).WIDTH ∧
    ((packedUint 32).unpack 4294967295 2 < 32 ∧
     ((packedUint 32).mul_by_x_then_add 4294967295 6 7).2 < 32) :=
  ⟨by decide, c10_unpack_masked 32 4294967295 2 6 7 (by decide)⟩

/-- C8: for a configuration whose midstate type is PackedNull, any
sequence of input_fe, input_hrp and input_target_residue calls leaves the
residue at its initial value, unpack always returns 0 and
mul_by_x_then_add is a no-op returning 0. -/
theorem c8_packed_null_inert (ck : Checksum PackedNull) (h : ck.midstate = packedNull)
    (ops : List EngineOp) (v : PackedNull) (n degree add : Nat) :
    ops.foldl (applyOp ck) ck.midstate.ONE = ck.midstate.ONE ∧
    ck.midstate.unpack v n = 0 ∧
    ck.midstate.mul_by_x_then_add v degree add = ({}, 0) := by
  obtain ⟨ms, cl, L, G, T⟩ := ck
  cases h
  exact ⟨rfl, rfl, rfl⟩

theorem c8_packed_null_inert_witness :
    nullChecksum.midstate = packedNull ∧
    ([EngineOp.fe 3, EngineOp.hrp [104, 105], EngineOp.targetResidue].foldl
        (applyOp nullChecksum) nullChecksum.midstate.ONE = nullChecksum.midstate.ONE ∧
      nullChecksum.midstate.unpack {} 4 = 0 ∧
      nullChecksum.midstate.mul_by_x_then_add {} 6 7 = ({}, 0)) :=
  ⟨rfl, c8_packed_null_inert nullChecksum rfl [EngineOp.fe 3, EngineOp.hrp [104, 105], EngineOp.targetResidue] {} 4 6 7⟩

theorem collect_low (ls : List Nat) : ∀ fuel, ls.length ≤ fuel →
    HrpFe32Iter.collect ⟨none, some ls⟩ fuel = ls.map (fun b => b &&& 0x1f) := by
  induction ls with
  | nil =>
    intro fuel _
    cases fuel with
    | zero => rfl
    | succ f => rfl
  | cons b rest ih =>
    intro fuel hf
    cases fuel with
    | zero => simp at hf
    | succ f =>
      have h1 : HrpFe32Iter.collect ⟨none, some (b :: rest)⟩ (f + 1)
          = (b &&& 0x1f) :: HrpFe32Iter.collect ⟨none, some rest⟩ f := rfl
      rw [h1, ih f (by simp at hf; omega)]
      rfl

theorem collect_high (hs ls : List Nat) : ∀ fuel, hs.length + ls.length + 1 ≤ fuel →
    HrpFe32Iter.collect ⟨some hs, some ls⟩ fuel
      = hs.map (fun b => b >>> 5) ++ feQ :: ls.map (fun b => b &&& 0x1f) := by
  induction hs with
  | nil =>
    intro fuel hf
    cases fuel with
    | zero => simp at hf
    | succ f =>
      have h1 : HrpFe32Iter.collect ⟨some [], some ls⟩ (f + 1)
          = feQ :: HrpFe32Iter.collect ⟨none, some ls⟩ f := rfl
      rw [h1, collect_low ls f (by simp at hf; omega)]
      rfl
  | cons b rest ih =>
    intro fuel hf
    cases fuel with
    | zero => simp at hf
    | succ f =>
      have h1 : HrpFe32Iter.collect ⟨some (b :: rest), some ls⟩ (f + 1)
          = (b >>> 5) :: HrpFe32Iter.collect ⟨some rest, some ls⟩ f := rfl
      rw [h1, ih f (by simp at hf; omega)]
      rfl

/-- C5: for a prefix of n lower-cased bytes, HrpFe32Iter yields exactly
2n + 1 field elements: the n high halves (byte >> 5) in order, then the
separator Fe32::Q, then the n low halves (byte & 0x1f) in order — for any
fuel large enough to exhaust the iterator, so the sequence is complete. -/
theorem c5_hrp_iter_sequence (bs : List Nat) (fuel : Nat) (hf : 2 * bs.length + 1 ≤ fuel) :
    (HrpFe32Iter.new bs).collect fuel
      = bs.map (fun b => b >>> 5) ++ feQ :: bs.map (fun b => b &&& 0x1f) ∧
    ((HrpFe32Iter.new bs).collect fuel).length = 2 * bs.length + 1 := by
  have hnew : HrpFe32Iter.new bs = ⟨some bs, some bs⟩ := rfl
  have h := collect_high bs bs fuel (by omega)
  rw [hnew, h]
  refine ⟨rfl, ?_⟩
  simp
  omega

theorem c5_hrp_iter_sequence_witness :
    2 * [104, 111].length + 1 ≤ 9 ∧
    ((HrpFe32Iter.new [104, 111]).collect 9
        = [104, 111].map (fun b => b >>> 5) ++ feQ :: [104, 111].map (fun b => b &&& 0x1f) ∧
      ((HrpFe32Iter.new [104, 111]).collect 9).length = 2 * [104, 111].length + 1) :=
  ⟨by decide, c5_hrp_iter_sequence [104, 111] 9 (by decide)⟩

/-- C4: the claim (size_hint is an exact remaining-element count at every
point) fails on this code: size_hint adds 1 for the separator twice, once
inside the high component and once more when summing, so a fresh iterator
over a 1-byte prefix reports (4, some 4) although only 3 elements will be
yielded. -/
theorem c4_size_hint_overcount :
    (HrpFe32Iter.new [97]).size_hint = (4, some 4) ∧
    ((HrpFe32Iter.new [97]).collect 10).length = 3 := by decide

/-- C7: sanity_check completes without an assertion failure iff
CHECKSUM_LENGTH is at most the midstate WIDTH and every stored generator
shift is, slot by slot, the field doubling (shift left one bit, xor 41 on
slot overflow) of its predecessor; i : Fin 4 stands for the Rust index
pair (i, i + 1), i.e. (i - 1, i) for i in 1..=4. -/
theorem c7_sanity_check_iff {M : Type} (ck : Checksum M) :
    sanity_check ck = true ↔
      (ck.CHECKSUM_LENGTH ≤ ck.midstate.WIDTH ∧
       ∀ i : Fin 4, ∀ j, j < ck.midstate.WIDTH →
         ck.midstate.unpack (ck.GENERATOR_SH ⟨i.val + 1, Nat.succ_lt_succ i.isLt⟩) j =
           ((ck.midstate.unpack (ck.GENERATOR_SH ⟨i.val, Nat.lt_succ_of_lt i.isLt⟩) j) <<< 1) ^^^
             (if ck.midstate.unpack (ck.GENERATOR_SH ⟨i.val, Nat.lt_succ_of_lt i.isLt⟩) j &&& 0x10 == 0x10
              then 41 else 0)) := by
  unfold sanity_check
  simp [List.all_eq_true, List.mem_range]

theorem uintUnpack_eq (v n : Nat) : uintUnpack v n = (v >>> (n * 5)) % 32 := by
  show ((v >>> (n * 5)) % 256) &&& (2 ^ 5 - 1) = (v >>> (n * 5)) % 32
  rw [Nat.and_pow_two_sub_one_eq_mod, Nat.mod_mod_of_dvd _ (by norm_num)]

theorem uintUnpack_eq_div (v n : Nat) : uintUnpack v n = (v / 2 ^ (5 * n)) % 32 := by
  rw [uintUnpack_eq, Nat.shiftRight_eq_div_pow, Nat.mul_comm n 5]

theorem uintUnpack_lt (v n : Nat) : uintUnpack v n < 32 :=
  Nat.lt_succ_of_le Nat.and_le_right

theorem nat_xor_left_comm (a b c : Nat) : a ^^^ (b ^^^ c) = b ^^^ (a ^^^ c) := by
  rw [← Nat.xor_assoc, Nat.xor_comm a b, Nat.xor_assoc]

theorem or_of_low_zero {z b k : Nat} (hz : z % 2 ^ k = 0) (hb : b < 2 ^ k) :
    z ||| b = z + b := by
  have hzd : 2 ^ k * (z / 2 ^ k) = z := by
    have := Nat.div_add_mod z (2 ^ k)
    omega
  calc z ||| b = 2 ^ k * (z / 2 ^ k) ||| b := by rw [hzd]
    _ = 2 ^ k * (z / 2 ^ k) + b := (Nat.mul_add_lt_is_or hb _).symm
    _ = z + b := by rw [hzd]

theorem xor_of_low_zero {z b k : Nat} (hz : z % 2 ^ k = 0) (hb : b < 2 ^ k) :
    z ^^^ b = z + b := by
  have hzd : 2 ^ k * (z / 2 ^ k) = z := by
    have := Nat.div_add_mod z (2 ^ k)
    omega
  rw [← hzd]
  apply Nat.eq_of_testBit_eq
  intro j
  rw [Nat.testBit_xor, Nat.testBit_mul_pow_two_add _ hb, Nat.testBit_mul_pow_two]
  by_cases hj : j < k
  · have h2 : ¬ (j ≥ k) := by omega
    simp [hj, h2]
  · have hge : j ≥ k := by omega
    have hbj : b.testBit j = false :=
      Nat.testBit_lt_two_pow (Nat.lt_of_lt_of_le hb (Nat.pow_le_pow_right (by omega) hge))
    simp [hj, hge, hbj]

theorem xor_mod_two_pow (a b k : Nat) : (a ^^^ b) % 2 ^ k = a % 2 ^ k ^^^ b % 2 ^ k := by
  rw [← Nat.and_pow_two_sub_one_eq_mod, ← Nat.and_pow_two_sub_one_eq_mod,
    ← Nat.and_pow_two_sub_one_eq_mod, Nat.and_xor_distrib_right]

theorem xor_div_two_pow (a b k : Nat) : (a ^^^ b) / 2 ^ k = a / 2 ^ k ^^^ b / 2 ^ k := by
  rw [← Nat.shiftRight_eq_div_pow, ← Nat.shiftRight_eq_div_pow, ← Nat.shiftRight_eq_div_pow]
  apply Nat.eq_of_testBit_eq
  intro j
  simp [Nat.testBit_shiftRight, Nat.testBit_xor]

theorem xor_mul_two_pow (a b k : Nat) : (a ^^^ b) * 2 ^ k = a * 2 ^ k ^^^ b * 2 ^ k := by
  rw [← Nat.shiftLeft_eq, ← Nat.shiftLeft_eq, ← Nat.shiftLeft_eq]
  apply Nat.eq_of_testBit_eq
  intro j
  simp only [Nat.testBit_shiftLeft, Nat.testBit_xor]
  by_cases hj : j ≥ k <;> simp [hj]

theorem and_not_slot_mask {w s v : Nat} (hv : v < 2 ^ w) (hs : s + 5 ≤ w) :
    v &&& ((2 ^ w - 1) ^^^ ((0x1f <<< s) % 2 ^ w)) =
      2 ^ (s + 5) * (v / 2 ^ (s + 5)) + v % 2 ^ s := by
  have hshlt : (0x1f : Nat) <<< s < 2 ^ (s + 5) := by
    rw [Nat.shiftLeft_eq, Nat.pow_add, Nat.mul_comm (2 ^ s) (2 ^ 5)]
    exact (Nat.mul_lt_mul_right (Nat.two_pow_pos s)).mpr (by norm_num)
  have hsh : (0x1f <<< s) % 2 ^ w = 0x1f <<< s :=
    Nat.mod_eq_of_lt (Nat.lt_of_lt_of_le hshlt (Nat.pow_le_pow_right (by omega) hs))
  rw [hsh]
  have hmod : v % 2 ^ s < 2 ^ (s + 5) :=
    Nat.lt_of_lt_of_le (Nat.mod_lt _ (Nat.two_pow_pos s)) (Nat.pow_le_pow_right (by omega) (by omega))
  apply Nat.eq_of_testBit_eq
  intro j
  have h31 : (0x1f : Nat) = 2 ^ 5 - 1 := rfl
  rw [Nat.testBit_and, Nat.testBit_xor, Nat.testBit_shiftLeft, h31, Nat.testBit_two_pow_sub_one,
    Nat.testBit_two_pow_sub_one, Nat.testBit_mul_pow_two_add _ hmod]
  by_cases h1 : j < s
  · have h2 : j < s + 5 := by omega
    have h3 : j < w := by omega
    have h4 : ¬ (j ≥ s) := by omega
    simp [h1, h2, h3, h4]
  · by_cases h2 : j < s + 5
    · have h3 : j < w := by omega
      have h4 : j ≥ s := by omega
      have h5 : j - s < 5 := by omega
      simp [h1, h2, h3, h4, h5]
    · by_cases h3 : j < w
      · have h4 : j ≥ s := by omega
        have h5 : ¬ (j - s < 5) := by omega
        have h6 : (v / 2 ^ (s + 5)).testBit (j - (s + 5)) = v.testBit j := by
          rw [← Nat.shiftRight_eq_div_pow, Nat.testBit_shiftRight,
            show s + 5 + (j - (s + 5)) = j by omega]
        simp [h2, h3, h4, h5, h6]
      · have hv5 : v.testBit j = false :=
          Nat.testBit_lt_two_pow (Nat.lt_of_lt_of_le hv (Nat.pow_le_pow_right (by omega) (by omega)))
        have h6 : (v / 2 ^ (s + 5)).testBit (j - (s + 5)) = v.testBit j := by
          rw [← Nat.shiftRight_eq_div_pow, Nat.testBit_shiftRight,
            show s + 5 + (j - (s + 5)) = j by omega]
        simp [h2, h3, hv5, h6]

theorem uintMulByXThenAdd_arith {w L v e : Nat} (hL : 1 ≤ L) (hw : 5 * L ≤ w)
    (hv : v < 2 ^ (5 * L)) (he : e < 32) :
    uintMulByXThenAdd w v L e = ((v % 2 ^ (5 * (L - 1))) * 32 + e, v / 2 ^ (5 * (L - 1))) := by
  have hs5 : 5 * (L - 1) + 5 = 5 * L := by omega
  have hvw : v < 2 ^ w := Nat.lt_of_lt_of_le hv (Nat.pow_le_pow_right (by omega) hw)
  have hsw : 5 * (L - 1) + 5 ≤ w := by omega
  have hv5 : v < 2 ^ (5 * (L - 1) + 5) := by rw [hs5]; exact hv
  have hret : uintUnpack v (L - 1) = v / 2 ^ (5 * (L - 1)) := by
    rw [uintUnpack_eq_div]
    apply Nat.mod_eq_of_lt
    apply Nat.div_lt_of_lt_mul
    rw [show 2 ^ (5 * (L - 1)) * 32 = 2 ^ (5 * (L - 1) + 5) by rw [Nat.pow_add]]
    exact hv5
  have hmask : v &&& ((2 ^ w - 1) ^^^ ((0x1f <<< ((L - 1) * 5)) % 2 ^ w))
      = v % 2 ^ (5 * (L - 1)) := by
    rw [Nat.mul_comm (L - 1) 5, and_not_slot_mask hvw hsw,
      Nat.div_eq_of_lt hv5, Nat.mul_zero, Nat.zero_add]
  have hv1 : v % 2 ^ (5 * (L - 1)) < 2 ^ (5 * (L - 1)) := Nat.mod_lt _ (Nat.two_pow_pos _)
  have hmul_lt : (v % 2 ^ (5 * (L - 1))) * 32 < 2 ^ w := by
    apply Nat.lt_of_lt_of_le ?_ (Nat.pow_le_pow_right (by omega) hsw)
    rw [Nat.pow_add]
    have := Nat.two_pow_pos (5 * (L - 1))
    have h32 : (2 : Nat) ^ 5 = 32 := by norm_num
    rw [h32]
    omega
  have hval : ((v &&& ((2 ^ w - 1) ^^^ ((0x1f <<< ((L - 1) * 5)) % 2 ^ w))) <<< 5) % 2 ^ w ||| e
      = (v % 2 ^ (5 * (L - 1))) * 32 + e := by
    rw [hmask, Nat.shiftLeft_eq, show (2 : Nat) ^ 5 = 32 by norm_num,
      Nat.mod_eq_of_lt hmul_lt]
    apply or_of_low_zero (k := 5)
    · rw [show (2 : Nat) ^ 5 = 32 by norm_num]
      exact Nat.mul_mod_left _ _
    · exact he
  rw [uintMulByXThenAdd, hval, hret]

theorem foldl_condXor (c : Fin 5 → Bool) (g : Fin 5 → Nat) :
    ∀ (l : List (Fin 5)) (v : Nat),
      l.foldl (fun r i => if c i then r ^^^ g i else r) v
        = v ^^^ l.foldl (fun r i => if c i then r ^^^ g i else r) 0 := by
  intro l
  induction l with
  | nil => intro v; simp
  | cons i t ih =>
    intro v
    rw [List.foldl_cons, List.foldl_cons, ih, ih (if c i then 0 ^^^ g i else 0)]
    cases h : c i <;> simp [h, Nat.xor_assoc]

theorem input_fe_mk (w cl L : Nat) (G : Fin 5 → Nat) (T : Nat) (r e : Nat) :
    input_fe (mkChecksum w cl L G T) r e
      = (uintMulByXThenAdd w r L e).1 ^^^ corrVal G (uintMulByXThenAdd w r L e).2 := by
  exact foldl_condXor (fun i => ((uintMulByXThenAdd w r L e).2 &&& (1 <<< i.val)) != 0) G
    (List.finRange 5) (uintMulByXThenAdd w r L e).1

theorem corrVal_eq_expand (G : Fin 5 → Nat) (xn : Nat) :
    corrVal G xn =
      (if xn.testBit 0 then G ⟨0, by omega⟩ else 0) ^^^
      (if xn.testBit 1 then G ⟨1, by omega⟩ else 0) ^^^
      (if xn.testBit 2 then G ⟨2, by omega⟩ else 0) ^^^
      (if xn.testBit 3 then G ⟨3, by omega⟩ else 0) ^^^
      (if xn.testBit 4 then G ⟨4, by omega⟩ else 0) := by
  have h5 : List.finRange 5 =
      [⟨0, by omega⟩, ⟨1, by omega⟩, ⟨2, by omega⟩, ⟨3, by omega⟩, ⟨4, by omega⟩] := by decide
  rw [corrVal, h5]
  simp only [List.foldl_cons, List.foldl_nil, and_one_shiftLeft_bne]
  cases h0 : xn.testBit 0 <;> cases h1 : xn.testBit 1 <;> cases h2 : xn.testBit 2 <;>
    cases h3 : xn.testBit 3 <;> cases h4 : xn.testBit 4 <;>
      simp [h0, h1, h2, h3, h4, Nat.xor_assoc]

theorem ite_xor_split (a b : Bool) (g : Nat) :
    (if (a ^^ b) then g else 0) = (if a then g else 0) ^^^ (if b then g else 0) := by
  cases a <;> cases b <;> simp

theorem corrVal_xor (G : Fin 5 → Nat) (d1 d2 : Nat) :
    corrVal G (d1 ^^^ d2) = corrVal G d1 ^^^ corrVal G d2 := by
  rw [corrVal_eq_expand, corrVal_eq_expand, corrVal_eq_expand]
  simp only [Nat.testBit_xor, ite_xor_split]
  ac_rfl

theorem corrVal_zero (G : Fin 5 → Nat) : corrVal G 0 = 0 := by
  rw [corrVal_eq_expand]
  simp

theorem corrVal_lt_two_pow (G : Fin 5 → Nat) (d n : Nat) (hG : ∀ i, G i < 2 ^ n) :
    corrVal G d < 2 ^ n := by
  rw [corrVal_eq_expand]
  have hterm : ∀ (b : Bool) (i : Fin 5), (if b then G i else 0) < 2 ^ n := by
    intro b i
    cases b <;> simp [hG i, Nat.two_pow_pos n]
  exact Nat.xor_lt_two_pow
    (Nat.xor_lt_two_pow
      (Nat.xor_lt_two_pow (Nat.xor_lt_two_pow (hterm _ _) (hterm _ _)) (hterm _ _))
      (hterm _ _))
    (hterm _ _)

theorem input_fe_mk_arith (w cl L : Nat) (G : Fin 5 → Nat) (T : Nat) {r e : Nat}
    (hL : 1 ≤ L) (hw : 5 * L ≤ w) (hr : r < 2 ^ (5 * L)) (he : e < 32) :
    input_fe (mkChecksum w cl L G T) r e
      = ((r % 2 ^ (5 * (L - 1))) * 32 + e) ^^^ corrVal G (r / 2 ^ (5 * (L - 1))) := by
  rw [input_fe_mk, uintMulByXThenAdd_arith hL hw hr he]

theorem input_fe_mk_lt (w cl L : Nat) (G : Fin 5 → Nat) (T : Nat) {r e : Nat}
    (hL : 1 ≤ L) (hw : 5 * L ≤ w) (hG : ∀ i, G i < 2 ^ (5 * L))
    (hr : r < 2 ^ (5 * L)) (he : e < 32) :
    input_fe (mkChecksum w cl L G T) r e < 2 ^ (5 * L) := by
  rw [input_fe_mk_arith w cl L G T hL hw hr he]
  apply Nat.xor_lt_two_pow ?_ (corrVal_lt_two_pow G _ _ hG)
  have h1 : r % 2 ^ (5 * (L - 1)) < 2 ^ (5 * (L - 1)) := Nat.mod_lt _ (Nat.two_pow_pos _)
  have h2 : 2 ^ (5 * (L - 1)) * 32 = 2 ^ (5 * L) := by
    rw [show (32 : Nat) = 2 ^ 5 from rfl, ← Nat.pow_add, show 5 * (L - 1) + 5 = 5 * L by omega]
  omega

theorem runFold_lt (w cl L : Nat) (G : Fin 5 → Nat) (T : Nat) (hL : 1 ≤ L) (hw : 5 * L ≤ w)
    (hG : ∀ i, G i < 2 ^ (5 * L)) :
    ∀ (es : List Nat) (r : Nat), (∀ x ∈ es, x < 32) → r < 2 ^ (5 * L) →
      es.foldl (input_fe (mkChecksum w cl L G T)) r < 2 ^ (5 * L) := by
  intro es
  induction es with
  | nil => intro r _ hr; exact hr
  | cons x t ih =>
    intro r hx hr
    rw [List.foldl_cons]
    exact ih _ (fun y hy => hx y (List.mem_cons_of_mem _ hy))
      (input_fe_mk_lt w cl L G T hL hw hG hr (hx x (List.mem_cons_self _ _)))

theorem input_fe_mk_xor (w cl L : Nat) (G : Fin 5 → Nat) (T : Nat) {a b e : Nat}
    (hL : 1 ≤ L) (hw : 5 * L ≤ w) (ha : a < 2 ^ (5 * L)) (hb : b < 2 ^ (5 * L)) (he : e < 32) :
    input_fe (mkChecksum w cl L G T) (a ^^^ b) e
      = input_fe (mkChecksum w cl L G T) a e ^^^ input_fe (mkChecksum w cl L G T) b 0 := by
  have hab : a ^^^ b < 2 ^ (5 * L) := Nat.xor_lt_two_pow ha hb
  rw [input_fe_mk_arith w cl L G T hL hw hab he,
    input_fe_mk_arith w cl L G T hL hw ha he,
    input_fe_mk_arith w cl L G T hL hw hb (by norm_num),
    xor_mod_two_pow, xor_div_two_pow, corrVal_xor, Nat.add_zero]
  have hmod32 : ∀ c : Nat, (c * 32) % 2 ^ 5 = 0 := by
    intro c
    rw [show (2 : Nat) ^ 5 = 32 from rfl]
    exact Nat.mul_mod_left _ _
  have hmul : (a % 2 ^ (5 * (L - 1)) ^^^ b % 2 ^ (5 * (L - 1))) * 32
      = (a % 2 ^ (5 * (L - 1))) * 32 ^^^ (b % 2 ^ (5 * (L - 1))) * 32 := by
    rw [show (32 : Nat) = 2 ^ 5 from rfl]
    exact xor_mul_two_pow _ _ 5
  rw [hmul, ← xor_of_low_zero (hmod32 _) he,
    ← xor_of_low_zero (k := 5) (by rw [xor_mod_two_pow, hmod32, hmod32]; rfl) he]
  ac_rfl

theorem input_fe_mk_split (w cl L : Nat) (G : Fin 5 → Nat) (T : Nat) {r y : Nat}
    (hL : 1 ≤ L) (hw : 5 * L ≤ w) (hr : r < 2 ^ (5 * L)) (hy : y < 32) :
    input_fe (mkChecksum w cl L G T) r y = input_fe (mkChecksum w cl L G T) r 0 ^^^ y := by
  rw [input_fe_mk_arith w cl L G T hL hw hr hy,
    input_fe_mk_arith w cl L G T hL hw hr (by norm_num), Nat.add_zero,
    ← xor_of_low_zero (k := 5)
      (by rw [show (2 : Nat) ^ 5 = 32 from rfl]; exact Nat.mul_mod_left _ _) hy]
  ac_rfl

theorem feedZeros_mk_step (ck : Checksum Nat) (r : Nat) (n : Nat) :
    feedZeros ck r (n + 1) = feedZeros ck (input_fe ck r 0) n := rfl

theorem input_fe_mk_shift (w cl L : Nat) (G : Fin 5 → Nat) (T : Nat) {u i : Nat}
    (hL : 1 ≤ L) (hw : 5 * L ≤ w) (hu : u < 32) (hi : i + 1 < L) :
    input_fe (mkChecksum w cl L G T) (u * 2 ^ (5 * i)) 0 = u * 2 ^ (5 * (i + 1)) := by
  have hpow : ∀ k : Nat, 2 ^ (5 * k) * 32 = 2 ^ (5 * (k + 1)) := by
    intro k
    rw [show (32 : Nat) = 2 ^ 5 from rfl, ← Nat.pow_add, show 5 * k + 5 = 5 * (k + 1) by omega]
  have hlt1 : u * 2 ^ (5 * i) < 2 ^ (5 * (i + 1)) := by
    rw [← hpow i]
    have := Nat.two_pow_pos (5 * i)
    have h32 : u * 2 ^ (5 * i) < 32 * 2 ^ (5 * i) :=
      (Nat.mul_lt_mul_right (Nat.two_pow_pos (5 * i))).mpr hu
    omega
  have hr : u * 2 ^ (5 * i) < 2 ^ (5 * L) :=
    Nat.lt_of_lt_of_le hlt1 (Nat.pow_le_pow_right (by omega) (by omega))
  have hsmall : u * 2 ^ (5 * i) < 2 ^ (5 * (L - 1)) :=
    Nat.lt_of_lt_of_le hlt1 (Nat.pow_le_pow_right (by omega) (by omega))
  rw [input_fe_mk_arith w cl L G T hL hw hr (by norm_num),
    Nat.mod_eq_of_lt hsmall, Nat.div_eq_of_lt hsmall, corrVal_zero, Nat.xor_zero,
    Nat.add_zero, Nat.mul_assoc, hpow i]

theorem feedZeros_mk_shift (w cl L : Nat) (G : Fin 5 → Nat) (T : Nat)
    (hL : 1 ≤ L) (hw : 5 * L ≤ w) :
    ∀ (m i u : Nat), u < 32 → m + i ≤ L - 1 →
      feedZeros (mkChecksum w cl L G T) (u * 2 ^ (5 * i)) m = u * 2 ^ (5 * (i + m)) := by
  intro m
  induction m with
  | zero => intro i u _ _; rfl
  | succ n ih =>
    intro i u hu hm
    rw [feedZeros_mk_step, input_fe_mk_shift w cl L G T hL hw hu (by omega),
      ih (i + 1) u hu (by omega), show i + 1 + n = i + (n + 1) by omega]

theorem feedZeros_mk_of_lt_32 (w cl L : Nat) (G : Fin 5 → Nat) (T : Nat) {u m : Nat}
    (hL : 1 ≤ L) (hw : 5 * L ≤ w) (hu : u < 32) (hm : m ≤ L - 1) :
    feedZeros (mkChecksum w cl L G T) u m = u * 2 ^ (5 * m) := by
  have h := feedZeros_mk_shift w cl L G T hL hw m 0 u hu (by omega)
  rw [Nat.mul_zero, Nat.pow_zero, Nat.mul_one] at h
  rw [h, Nat.zero_add]

theorem foldl_xor_feed (w cl L : Nat) (G : Fin 5 → Nat) (T : Nat) (hL : 1 ≤ L) (hw : 5 * L ≤ w)
    (hG : ∀ i, G i < 2 ^ (5 * L)) :
    ∀ (es : List Nat) (a b : Nat), (∀ x ∈ es, x < 32) →
      a < 2 ^ (5 * L) → b < 2 ^ (5 * L) →
      es.foldl (input_fe (mkChecksum w cl L G T)) (a ^^^ b)
        = es.foldl (input_fe (mkChecksum w cl L G T)) a
            ^^^ feedZeros (mkChecksum w cl L G T) b es.length := by
  intro es
  induction es with
  | nil => intro a b _ _ _; rfl
  | cons x t ih =>
    intro a b hx ha hb
    rw [List.foldl_cons, input_fe_mk_xor w cl L G T hL hw ha hb (hx x (List.mem_cons_self _ _)),
      ih _ _ (fun y hy => hx y (List.mem_cons_of_mem _ hy))
        (input_fe_mk_lt w cl L G T hL hw hG ha (hx x (List.mem_cons_self _ _)))
        (input_fe_mk_lt w cl L G T hL hw hG hb (by norm_num))]
    rfl

theorem unpackSeq_length (v L : Nat) : (unpackSeq v L).length = L := by
  simp [unpackSeq]

theorem unpackSeq_mem_lt (v L : Nat) : ∀ y ∈ unpackSeq v L, y < 32 := by
  intro y hy
  simp only [unpackSeq, List.mem_map] at hy
  obtain ⟨i, _, hi⟩ := hy
  rw [← hi]
  exact uintUnpack_lt _ _

theorem foldl_eq_zero_feed_xor (w cl L : Nat) (G : Fin 5 → Nat) (T : Nat)
    (hL : 1 ≤ L) (hw : 5 * L ≤ w) (hG : ∀ i, G i < 2 ^ (5 * L)) :
    ∀ (ys : List Nat) (r : Nat), ys.length ≤ L → (∀ y ∈ ys, y < 32) → r < 2 ^ (5 * L) →
      ys.foldl (input_fe (mkChecksum w cl L G T)) r
        = feedZeros (mkChecksum w cl L G T) r ys.length ^^^ revPackX ys := by
  intro ys
  induction ys with
  | nil => intro r _ _ _; simp [feedZeros, revPackX]
  | cons y t ih =>
    intro r hlen hmem hr
    have hy : y < 32 := hmem y (List.mem_cons_self _ _)
    have htlen : t.length ≤ L - 1 := by
      simp only [List.length_cons] at hlen
      omega
    have hy2 : y < 2 ^ (5 * L) :=
      Nat.lt_of_lt_of_le hy (by
        calc (32 : Nat) = 2 ^ 5 := rfl
          _ ≤ 2 ^ (5 * L) := Nat.pow_le_pow_right (by omega) (by omega))
    have hr0 : input_fe (mkChecksum w cl L G T) r 0 < 2 ^ (5 * L) :=
      input_fe_mk_lt w cl L G T hL hw hG hr (by norm_num)
    rw [List.foldl_cons, input_fe_mk_split w cl L G T hL hw hr hy,
      foldl_xor_feed w cl L G T hL hw hG t _ y
        (fun z hz => hmem z (List.mem_cons_of_mem _ hz)) hr0 hy2,
      ih _ (by omega) (fun z hz => hmem z (List.mem_cons_of_mem _ hz)) hr0,
      feedZeros_mk_of_lt_32 w cl L G T hL hw hy htlen]
    rw [show revPackX (y :: t) = (y <<< (5 * t.length)) ^^^ revPackX t from rfl,
      Nat.shiftLeft_eq, show (y :: t).length = t.length + 1 from rfl,
      ← feedZeros_mk_step]
    ac_rfl

theorem unpackSeq_succ (v L : Nat) : unpackSeq v (L + 1) = uintUnpack v L :: unpackSeq v L := by
  simp only [unpackSeq, List.range_succ_eq_map, List.map_cons, List.map_map, Nat.sub_zero,
    Nat.add_sub_cancel]
  congr 1
  apply List.map_congr_left
  intro i _
  simp only [Function.comp_apply]
  congr 1
  omega

theorem revPackX_unpackSeq (v : Nat) : ∀ L, revPackX (unpackSeq v L) = v % 2 ^ (5 * L) := by
  intro L
  induction L with
  | zero => simp [unpackSeq, revPackX, Nat.mod_one]
  | succ n ih =>
    rw [unpackSeq_succ, show revPackX (uintUnpack v n :: unpackSeq v n)
        = (uintUnpack v n <<< (5 * (unpackSeq v n).length)) ^^^ revPackX (unpackSeq v n) from rfl,
      unpackSeq_length, ih, Nat.shiftLeft_eq, uintUnpack_eq_div]
    have hz : ((v / 2 ^ (5 * n)) % 32) * 2 ^ (5 * n) % 2 ^ (5 * n) = 0 := Nat.mul_mod_left _ _
    rw [xor_of_low_zero hz (Nat.mod_lt _ (Nat.two_pow_pos _))]
    have hmm : v % 2 ^ (5 * (n + 1)) = v % 2 ^ (5 * n) + 2 ^ (5 * n) * (v / 2 ^ (5 * n) % 2 ^ 5) := by
      rw [show 5 * (n + 1) = 5 * n + 5 by omega, Nat.pow_add]
      exact Nat.mod_mul
    rw [hmm, show (2 : Nat) ^ 5 = 32 from rfl]
    ring

/-- C2 (amended): for every u-int configuration with
1 ≤ CHECKSUM_LENGTH ≤ WIDTH whose GENERATOR_SH entries and TARGET_RESIDUE
all fit in the low CHECKSUM_LENGTH slots (are < 2 ^ (5 * CHECKSUM_LENGTH)),
and every combined prefix-contribution-plus-payload sequence of field
elements: feeding that sequence and then input_target_residue into a
fresh engine, reading the resulting residue as CHECKSUM_LENGTH symbols
from slot CHECKSUM_LENGTH - 1 down to slot 0, and feeding the sequence
followed by those symbols into a second fresh engine leaves the second
engine's residue equal to TARGET_RESIDUE. -/
theorem c2_roundtrip (w cl L : Nat) (G : Fin 5 → Nat) (T : Nat) (msg : List Nat)
    (hL : 1 ≤ L) (hLW : L ≤ w / 5) (hG : ∀ i, G i < 2 ^ (5 * L)) (hT : T < 2 ^ (5 * L))
    (hmsg : ∀ x ∈ msg, x < 32) :
    runEngine (mkChecksum w cl L G T)
        (msg ++ unpackSeq (input_target_residue (mkChecksum w cl L G T)
            (runEngine (mkChecksum w cl L G T) msg)) L)
      = T := by
  have hw : 5 * L ≤ w := by
    have h1 := Nat.div_mul_le_self w 5
    omega
  have hone : (mkChecksum w cl L G T).midstate.ONE = 1 := rfl
  have h1lt : (1 : Nat) < 2 ^ (5 * L) := by
    have h2 : (2 : Nat) ^ 0 < 2 ^ (5 * L) := Nat.pow_lt_pow_right (by omega) (by omega)
    simpa using h2
  have hr0 : runEngine (mkChecksum w cl L G T) msg < 2 ^ (5 * L) := by
    rw [runEngine, hone]
    exact runFold_lt w cl L G T hL hw hG msg 1 hmsg h1lt
  set r0 := runEngine (mkChecksum w cl L G T) msg with hr0def
  have htf : input_target_residue (mkChecksum w cl L G T) r0
      = (unpackSeq T L).foldl (input_fe (mkChecksum w cl L G T)) r0 := by
    rw [unpackSeq, List.foldl_map]
    rfl
  have he1 : input_target_residue (mkChecksum w cl L G T) r0
      = feedZeros (mkChecksum w cl L G T) r0 L ^^^ T := by
    rw [htf, foldl_eq_zero_feed_xor w cl L G T hL hw hG _ _
        (by simp [unpackSeq_length]) (unpackSeq_mem_lt T L) hr0,
      unpackSeq_length, revPackX_unpackSeq, Nat.mod_eq_of_lt hT]
  have he1lt : input_target_residue (mkChecksum w cl L G T) r0 < 2 ^ (5 * L) := by
    rw [htf]
    exact runFold_lt w cl L G T hL hw hG _ _ (unpackSeq_mem_lt T L) hr0
  rw [runEngine, List.foldl_append, hone,
    show msg.foldl (input_fe (mkChecksum w cl L G T)) 1 = r0 from rfl,
    foldl_eq_zero_feed_xor w cl L G T hL hw hG _ _
      (by simp [unpackSeq_length])
      (unpackSeq_mem_lt (input_target_residue (mkChecksum w cl L G T) r0) L) hr0,
    unpackSeq_length, revPackX_unpackSeq, Nat.mod_eq_of_lt he1lt, he1,
    ← Nat.xor_assoc, Nat.xor_self, Nat.zero_xor]

/-- C2 as stated is false on the code: with the u32 midstate,
CHECKSUM_LENGTH 1 (which satisfies CHECKSUM_LENGTH ≤ WIDTH = 6), all-zero
generator shifts, TARGET_RESIDUE 32 (one bit above slot 0) and an empty
prefix and payload, the second engine ends at residue 0, not at
TARGET_RESIDUE. -/
theorem c2_roundtrip_counterexample :
    ¬ (runEngine (mkChecksum 32 0 1 (fun _ => 0) 32)
        ([] ++ unpackSeq (input_target_residue (mkChecksum 32 0 1 (fun _ => 0) 32)
            (runEngine (mkChecksum 32 0 1 (fun _ => 0) 32) [])) 1)
      = 32) := by decide

theorem c2_roundtrip_witness :
    ((1 : Nat) ≤ 1 ∧ (1 : Nat) ≤ 32 / 5 ∧ (∀ i : Fin 5, (fun _ : Fin 5 => (0 : Nat)) i < 2 ^ (5 * 1))
      ∧ (5 : Nat) < 2 ^ (5 * 1) ∧ (∀ x ∈ ([3] : List Nat), x < 32)) ∧
    runEngine (mkChecksum 32 0 1 (fun _ => 0) 5)
        ([3] ++ unpackSeq (input_target_residue (mkChecksum 32 0 1 (fun _ => 0) 5)
            (runEngine (mkChecksum 32 0 1 (fun _ => 0) 5) [3])) 1)
      = 5 :=
  ⟨⟨by decide, by decide, fun i => by norm_num, by decide, by decide⟩,
   c2_roundtrip 32 0 1 (fun _ => 0) 5 [3] (by decide) (by decide) (fun i => by norm_num)
     (by decide) (by decide)⟩

/-- C3: for the w-bit unsigned impls (u32, u64, u128), for every stored
value v, every degree with 1 ≤ degree ≤ WIDTH and every add < 32,
mul_by_x_then_add returns unpack(v, degree - 1) and replaces the value by
(v with slot degree - 1 zeroed) shifted left 5 bits within the w-bit
type, with add written into the vacated slot 0; in particular on u32,
starting from ONE, mul_by_x_then_add(3, 5) returns dropped 0 and leaves
the value 37. -/
theorem c3_mul_by_x_then_add (w v degree add : Nat) (hw : w = 32 ∨ w = 64 ∨ w = 128)
    (hv : v < 2 ^ w) (hd : 1 ≤ degree) (hdW : degree ≤ (packedUint w).WIDTH) (ha : add < 32) :
    uintMulByXThenAdd w v degree add = specMulByXThenAdd w v degree add ∧
    (packedUint 32).mul_by_x_then_add (packedUint 32).ONE 3 5 = (37, 0) := by
  refine ⟨?_, by decide⟩
  have h5w : 5 ≤ w := by rcases hw with h | h | h <;> omega
  have hdw5 : degree ≤ w / 5 := hdW
  have hsw : 5 * (degree - 1) + 5 ≤ w := by
    have h1 := Nat.div_mul_le_self w 5
    omega
  have hmask := and_not_slot_mask (s := 5 * (degree - 1)) hv hsw
  have hzeroed : v - uintUnpack v (degree - 1) * 2 ^ (5 * (degree - 1))
      = 2 ^ (5 * (degree - 1) + 5) * (v / 2 ^ (5 * (degree - 1) + 5))
        + v % 2 ^ (5 * (degree - 1)) := by
    rw [uintUnpack_eq_div, show (32 : Nat) = 2 ^ 5 from rfl,
      Nat.mul_comm (v / 2 ^ (5 * (degree - 1)) % 2 ^ 5) (2 ^ (5 * (degree - 1)))]
    have hd1 : v = 2 ^ (5 * (degree - 1) + 5) * (v / 2 ^ (5 * (degree - 1) + 5))
        + v % 2 ^ (5 * (degree - 1) + 5) := (Nat.div_add_mod v _).symm
    have hd2 : v % 2 ^ (5 * (degree - 1) + 5)
        = v % 2 ^ (5 * (degree - 1))
          + 2 ^ (5 * (degree - 1)) * (v / 2 ^ (5 * (degree - 1)) % 2 ^ 5) := by
      rw [Nat.pow_add]
      exact Nat.mod_mul
    omega
  unfold uintMulByXThenAdd specMulByXThenAdd
  simp only [Prod.mk.injEq]
  refine ⟨?_, trivial⟩
  rw [show (degree - 1) * 5 = 5 * (degree - 1) from Nat.mul_comm _ _, hmask, ← hzeroed]
  apply or_of_low_zero (k := 5) ?_ ha
  rw [Nat.shiftLeft_eq]
  apply Nat.mod_eq_zero_of_dvd
  exact (Nat.dvd_mod_iff (Nat.pow_dvd_pow 2 h5w)).mpr (Dvd.intro_left _ rfl)

theorem c3_mul_by_x_then_add_witness :
    ((32 = 32 ∨ 32 = 64 ∨ 32 = 128) ∧ (1000000 : Nat) < 2 ^ 32 ∧ (1 : Nat) ≤ 4
      ∧ 4 ≤ (packedUint 32).WIDTH ∧ (17 : Nat) < 32) ∧
    (uintMulByXThenAdd 32 1000000 4 17 = specMulByXThenAdd 32 1000000 4 17 ∧
     (packedUint 32).mul_by_x_then_add (packedUint 32).ONE 3 5 = (37, 0)) :=
  ⟨⟨Or.inl rfl, by decide, by decide, by decide, by decide⟩,
   c3_mul_by_x_then_add 32 1000000 4 17 (Or.inl rfl) (by decide) (by decide) (by decide)
     (by decide)⟩
